import Mathlib

/-!
# A shallow embedding of the sorg page-tree builder

This development embeds the core of the sorg static-site generator in Lean:
the page-tree builder (src/page.rs), the property and slug helpers, the
macro processor (src/macros.rs), the configuration constructor
(src/config.rs, src/args.rs) and the template-name resolution
(src/tera.rs, src/template.rs).  External collaborators (the org parser,
the tera template engine, the filesystem) are modelled by plain data:
headings are a tree of title records, the template engine is a variable
substitution function, filesystem paths are strings.
-/

namespace Sorg

/-! ## Characters and strings

The Rust code works with UTF-8 strings; the embedding models the ASCII
fragment of the case conversions it performs.  All functions are written
as structural recursions over lists of characters so that the kernel can
evaluate them on concrete inputs.
-/

/-- ASCII lower-casing of one character, the model of what Rust
to_lowercase does on the ASCII property names appearing in the sources. -/
def lowerChar (c : Char) : Char :=
  if 65 ≤ c.toNat ∧ c.toNat ≤ 90 then Char.ofNat (c.toNat + 32) else c

/-- ASCII lower-casing of a string (model of str::to_lowercase). -/
def lowerString (s : String) : String :=
  String.mk (s.data.map lowerChar)

/-- Whitespace recognizer used to model str::trim. -/
def isSpaceChar (c : Char) : Bool :=
  c = ' ' || c = '\t' || c = '\n' || c = '\r'

/-- Trim whitespace from both ends of a character list (model of str::trim). -/
def trimChars (l : List Char) : List Char :=
  ((l.dropWhile isSpaceChar).reverse.dropWhile isSpaceChar).reverse

/-- Split a character list at commas.  Mirrors str::split of Rust, which
always yields at least one (possibly empty) piece. -/
def splitOnComma : List Char → List (List Char)
  | [] => [[]]
  | c :: rest =>
    if c = ',' then [] :: splitOnComma rest
    else
      match splitOnComma rest with
      | [] => [[c]]
      | r :: rs => (c :: r) :: rs

/-! ## The slug function

Modelled from the spec: the slugmin crate used by src/page.rs is an
external dependency whose source is not part of this repository.  The
spec states that slugify always produces a lowercase, hyphen-separated,
alphanumeric-safe string (for example the repository tests expect the
title "first child" to become "first-child").  The model keeps ASCII
letters (lower-cased) and digits and joins the maximal kept runs with
single hyphens. -/

/-- Keep a character for the slug: lowercase letters and digits survive,
uppercase letters are lower-cased, everything else separates words. -/
def slugChar (c : Char) : Option Char :=
  if 97 ≤ c.toNat ∧ c.toNat ≤ 122 then some c
  else if 65 ≤ c.toNat ∧ c.toNat ≤ 90 then some (Char.ofNat (c.toNat + 32))
  else if 48 ≤ c.toNat ∧ c.toNat ≤ 57 then some c
  else none

/-- Runs of kept characters, split at separator characters.  Separator
characters close the current run, so empty runs can appear. -/
def slugRuns : List Char → List (List Char)
  | [] => []
  | c :: rest =>
    match slugChar c, slugRuns rest with
    | none, rs => [] :: rs
    | some d, [] => [[d]]
    | some d, r :: rs => (d :: r) :: rs

/-- The nonempty runs of kept characters. -/
def slugWords (l : List Char) : List (List Char) :=
  (slugRuns l).filter (fun r => !r.isEmpty)

/-- Join words with single hyphens. -/
def joinWords : List (List Char) → List Char
  | [] => []
  | [w] => w
  | w :: ws => w ++ '-' :: joinWords ws

/-- Modelled from the spec: slugify of the external slugmin crate. -/
def slugify (s : String) : String :=
  String.mk (joinWords (slugWords s.data))

/-- A character that may appear in a slugify result: a lowercase ASCII
letter, an ASCII digit, or a hyphen. -/
def isSlugOutputChar (c : Char) : Bool :=
  (97 ≤ c.toNat && c.toNat ≤ 122) || (48 ≤ c.toNat && c.toNat ≤ 57) || c = '-'

/-! ## The data model of parsed org documents

These types stand for the relevant parts of the tree the external orgize
parser produces: a title with raw text, tags, an optional workflow
keyword, an ordered property list and an optional closed timestamp, and
headings forming a tree. -/

/-- A calendar timestamp value (abstraction of orgize Datetime). -/
structure Datetime where
  year : Nat
  month : Nat
  day : Nat

/-- A planning timestamp (abstraction of orgize Timestamp; only the
distinction between inactive and other forms matters to the builder). -/
inductive Timestamp where
  | inactive (start : Datetime)
  | active (start : Datetime)
  | other

/-- The title data of one heading, as produced by the external parser. -/
structure Title where
  raw : String
  tags : List String
  keyword : Option String
  properties : List (String × String)
  closed : Option Timestamp

/-- A heading of the org document: its title and its direct children. -/
inductive Heading where
  | node (title : Title) (children : List Heading)

/-- The title of a heading. -/
def Heading.titleOf : Heading → Title
  | .node t _ => t

/-- The direct children of a heading. -/
def Heading.childrenOf : Heading → List Heading
  | .node _ cs => cs

/-! ## Property and slug helpers (src/page.rs lines 280 to 294) -/

/-- get_property of src/page.rs: the first property whose lower-cased
name equals the requested name. -/
def get_property (title : Title) (prop : String) : Option String :=
  (title.properties.find? (fun p => lowerString p.1 == prop)).map (fun p => p.2)

/-- get_slug of src/page.rs: the slug property if present, otherwise the
slugified title. -/
def get_slug (title : Title) (titleString : String) : String :=
  match get_property title "slug" with
  | some prop => prop
  | none => slugify titleString

/-- The displayed title string: the title property override if present,
otherwise the raw heading text (src/page.rs lines 61 to 64). -/
def titleStringOf (t : Title) : String :=
  match get_property t "title" with
  | some s => s
  | none => t.raw

/-- The closed date of a heading: the start of an inactive closed
timestamp (src/page.rs lines 95 to 101 and 160 to 166). -/
def closedStart (t : Title) : Option Datetime :=
  match t.closed with
  | some (.inactive start) => some start
  | _ => none

/-- parse_file_link of src/helpers.rs.  Modelled from the spec for the
part done by the external org parser: a body of the canonical link shape,
double brackets around a file: path with an optional description, yields
the path; anything else yields none. -/
def takeToRBracket : List Char → Option (List Char × List Char)
  | [] => none
  | c :: rest =>
    if c = ']' then some ([], rest)
    else
      match takeToRBracket rest with
      | some (k, r) => some (c :: k, r)
      | none => none

/-- Extract the file path of an org file link, for example the string
of shape double-bracket file:test.org double-bracket gives test.org. -/
def parse_file_link (link : String) : Option String :=
  match link.data with
  | '[' :: '[' :: rest =>
    match takeToRBracket rest with
    | some (inner, _) =>
      if inner.take 5 = ['f', 'i', 'l', 'e', ':'] then
        some (String.mk (inner.drop 5))
      else none
    | none => none
  | _ => none

/-! ## The association-list model of HashMap

Children of an index page and the document preamble are collected into a
HashMap.  The embedding uses an association list without duplicate keys:
inserting an existing key replaces its value in place, a new key is
appended.  Collecting a pair list folds insertions left to right, so a
later pair with the same key overwrites an earlier one, exactly as
HashMap collect does. -/

/-- Insert a binding, replacing the binding of an equal key. -/
def insertReplace {α : Type} : List (String × α) → String → α → List (String × α)
  | [], k, v => [(k, v)]
  | (k1, v1) :: rest, k, v =>
    if k1 = k then (k, v) :: rest else (k1, v1) :: insertReplace rest k v

/-- Collect a list of bindings into the association-list map, later
bindings overwriting earlier ones with the same key. -/
def collectMap {α : Type} (l : List (String × α)) : List (String × α) :=
  l.foldl (fun m kv => insertReplace m kv.1 kv.2) []

/-- The last binding of a key in a plain binding list. -/
def findLast {α : Type} (s : String) : List (String × α) → Option α
  | [] => none
  | (k, v) :: rest =>
    match findLast s rest with
    | some w => some w
    | none => if k = s then some v else none

/-! ## The page tree (src/page.rs lines 21 to 50)

The Rust Page struct and its PageEnum field are flattened into one
inductive with a constructor per PageEnum variant; each constructor
carries the common Page fields. -/

/-- A page of the built tree.  index pages carry the slug-keyed child
map, org-file pages carry the linked file path. -/
inductive Page : Type where
  | index (headline : Heading) (slug : String) (title : String) (path : String)
      (description : Option String) (order : Nat) (closedAt : Option Datetime)
      (children : List (String × Page))
  | post (headline : Heading) (slug : String) (title : String) (path : String)
      (description : Option String) (order : Nat) (closedAt : Option Datetime)
  | orgFile (headline : Heading) (slug : String) (title : String) (path : String)
      (description : Option String) (order : Nat) (closedAt : Option Datetime)
      (filePath : String)

/-- The headline field of a page. -/
def Page.headline : Page → Heading
  | .index h .. => h
  | .post h .. => h
  | .orgFile h .. => h

/-- The slug field of a page. -/
def Page.slug : Page → String
  | .index _ s .. => s
  | .post _ s .. => s
  | .orgFile _ s .. => s

/-- The title field of a page. -/
def Page.title : Page → String
  | .index _ _ t .. => t
  | .post _ _ t .. => t
  | .orgFile _ _ t .. => t

/-- The path field of a page. -/
def Page.path : Page → String
  | .index _ _ _ p .. => p
  | .post _ _ _ p .. => p
  | .orgFile _ _ _ p .. => p

/-- The description field of a page. -/
def Page.description : Page → Option String
  | .index _ _ _ _ d .. => d
  | .post _ _ _ _ d .. => d
  | .orgFile _ _ _ _ d .. => d

/-- The order field of a page. -/
def Page.order : Page → Nat
  | .index _ _ _ _ _ o .. => o
  | .post _ _ _ _ _ o .. => o
  | .orgFile _ _ _ _ _ o .. => o

/-- The children map of a page; empty for non-index pages. -/
def Page.childrenList : Page → List (String × Page)
  | .index _ _ _ _ _ _ _ ch => ch
  | .post .. => []
  | .orgFile .. => []

/-- Whether the page is an index page. -/
def Page.isIndex : Page → Bool
  | .index .. => true
  | .post .. => false
  | .orgFile .. => false

/-! ## The heading classifier and tree builder (src/page.rs lines 52 to 168) -/

/-- The workflow keyword configuration: the not-done list and the done
list (the Keywords pair of src/main.rs). -/
abbrev Keywords := List String × List String

/-- The filter_map closure body of parse_index (src/page.rs lines 80 to
143), taking the already built recursive index page as an argument so
that the classification logic is shared between the recursive builder
and the standalone classifier below.  Returns none when the child is
excluded. -/
def classifyChildAux (kws : Keywords) (parentIsPosts : Bool) (path : String)
    (order : Nat) (c : Heading) (indexPage : Page) : Option Page :=
  let t := c.titleOf
  if t.tags.contains "noexport" then none
  else
    let titleString := titleStringOf t
    let slug := get_slug t titleString
    let description := get_property t "description"
    let closedAt := closedStart t
    let leafPage : Page :=
      match t.properties.find? (fun p => p.1 == "file") with
      | some kv =>
        match parse_file_link kv.2 with
        | some link =>
          .orgFile c slug titleString (path ++ "/" ++ slug) description order closedAt link
        | none => .post c slug titleString (path ++ "/" ++ slug) description order closedAt
      | none => .post c slug titleString (path ++ "/" ++ slug) description order closedAt
    if t.tags.contains "post" || parentIsPosts then
      match t.keyword with
      | some kw => if kw ∈ kws.1 then none else some leafPage
      | none => some leafPage
    else some indexPage

/-- The path accumulation step of parse_index (src/page.rs lines 66 to
69): append the slug unless it is the sentinel index. -/
def accPath (t : Title) (path : String) : String :=
  let slug := get_slug t (titleStringOf t)
  if slug ≠ "index" then path ++ "/" ++ slug else path

mutual

/-- parse_index of src/page.rs: build the page tree for a heading.  The
children are the enumerated direct children that survive classification,
collected into the slug-keyed map; the accumulated path is normalized to
the root path when empty. -/
def parse_index (kws : Keywords) : Heading → String → Nat → Page
  | .node t cs, path0, order =>
    let titleString := titleStringOf t
    let slug := get_slug t titleString
    let path1 := if slug ≠ "index" then path0 ++ "/" ++ slug else path0
    let description := get_property t "description"
    let parentIsPosts := t.tags.contains "posts"
    let children :=
      collectMap ((parseChildren kws parentIsPosts path1 0 cs).map (fun p => (p.slug, p)))
    let path2 := if path1 = "" then "/" else path1
    .index (.node t cs) slug titleString path2 description order (closedStart t) children

/-- The enumerate plus filter_map pipeline over the direct children
(src/page.rs lines 77 to 146): the enumeration index is assigned before
filtering, and surviving children are returned in document order. -/
def parseChildren (kws : Keywords) (parentIsPosts : Bool) (path : String) :
    Nat → List Heading → List Page
  | _, [] => []
  | i, c :: rest =>
    (classifyChildAux kws parentIsPosts path i c (parse_index kws c path i)).toList
      ++ parseChildren kws parentIsPosts path (i + 1) rest

end

/-- The classifier for one enumerated child heading: the filter_map
closure of parse_index, recursing into parse_index for index children. -/
def classifyChild (kws : Keywords) (parentIsPosts : Bool) (path : String)
    (order : Nat) (c : Heading) : Option Page :=
  classifyChildAux kws parentIsPosts path order c (parse_index kws c path order)

/-- The workflow keyword configuration of src/main.rs (todos) and
src/config.rs (TODO_KEYWORDS): the not-done and done keyword lists. -/
def todos : Keywords :=
  (["TODO", "PROGRESS", "WAITING", "MAYBE", "CANCELLED"], ["DONE", "READ"])

/-! ## The release-aware builder the call sites target

Both staged call sites of the builder pass a sixth boolean argument:
run passes its release flag (src/main.rs line 223) and generate_folders
passes false (src/folders.rs lines 15 to 22).  The six-parameter
Page::parse_index they call is code of this repository that is not
under src/ (the staged page.rs holds the five-parameter variant
embedded above).  The definitions below model the missing builder from
the spec: per the spec it behaves like the staged builder in every
respect except the workflow-keyword exclusion, which spares the
designated in-review keyword outside release mode. -/

/-- Modelled from the spec: the designated in-review workflow keyword —
exactly one not-done keyword is visible only outside release mode, and
the spec and the not-done list of src/config.rs name it PROGRESS. -/
def inReviewKeyword : String := "PROGRESS"

/-- Modelled from the spec: the workflow-keyword exclusion of the
missing six-parameter Page::parse_index.  A keyword excludes the
heading when it is in the not-done set, unless the build is non-release
and the keyword is the designated in-review keyword. -/
def keywordExcluded (kws : Keywords) (release : Bool) (kw : String) : Bool :=
  kws.1.contains kw && !(!release && kw == inReviewKeyword)

/-- Modelled from the spec: the child classification of the missing
six-parameter builder — identical to classifyChildAux except that the
workflow-keyword test is keywordExcluded. -/
def classifyChildAuxR (kws : Keywords) (release : Bool) (parentIsPosts : Bool)
    (path : String) (order : Nat) (c : Heading) (indexPage : Page) : Option Page :=
  let t := c.titleOf
  if t.tags.contains "noexport" then none
  else
    let titleString := titleStringOf t
    let slug := get_slug t titleString
    let description := get_property t "description"
    let closedAt := closedStart t
    let leafPage : Page :=
      match t.properties.find? (fun p => p.1 == "file") with
      | some kv =>
        match parse_file_link kv.2 with
        | some link =>
          .orgFile c slug titleString (path ++ "/" ++ slug) description order closedAt link
        | none => .post c slug titleString (path ++ "/" ++ slug) description order closedAt
      | none => .post c slug titleString (path ++ "/" ++ slug) description order closedAt
    if t.tags.contains "post" || parentIsPosts then
      match t.keyword with
      | some kw => if keywordExcluded kws release kw then none else some leafPage
      | none => some leafPage
    else some indexPage

mutual

/-- Modelled from the spec: the missing six-parameter Page::parse_index
called at src/main.rs line 223 and src/folders.rs line 21 — the staged
builder with the release-aware keyword exclusion. -/
def parse_index_r (kws : Keywords) (release : Bool) : Heading → String → Nat → Page
  | .node t cs, path0, order =>
    let titleString := titleStringOf t
    let slug := get_slug t titleString
    let path1 := if slug ≠ "index" then path0 ++ "/" ++ slug else path0
    let description := get_property t "description"
    let parentIsPosts := t.tags.contains "posts"
    let children :=
      collectMap ((parseChildrenR kws release parentIsPosts path1 0 cs).map
        (fun p => (p.slug, p)))
    let path2 := if path1 = "" then "/" else path1
    .index (.node t cs) slug titleString path2 description order (closedStart t) children

/-- The enumerated child pipeline of the six-parameter builder. -/
def parseChildrenR (kws : Keywords) (release : Bool) (parentIsPosts : Bool)
    (path : String) : Nat → List Heading → List Page
  | _, [] => []
  | i, c :: rest =>
    (classifyChildAuxR kws release parentIsPosts path i c
        (parse_index_r kws release c path i)).toList
      ++ parseChildrenR kws release parentIsPosts path (i + 1) rest

end

/-- The standalone child classifier of the six-parameter builder. -/
def classifyChildR (kws : Keywords) (release : Bool) (parentIsPosts : Bool)
    (path : String) (order : Nat) (c : Heading) : Option Page :=
  classifyChildAuxR kws release parentIsPosts path order c
    (parse_index_r kws release c path order)

/-- The tree construction step of run (src/main.rs line 223): the tree
is built from the first top-level heading with the todos keyword set, an
empty accumulated path, order zero, and the release flag of the build
mode. -/
def runTree (release : Bool) (first : Heading) : Page :=
  parse_index_r todos release first "" 0

/-! ## Reachable pages of a tree -/

mutual

/-- All pages of a tree: the root and every page below it. -/
def Page.allPages : Page → List Page
  | .index hd s t pa d o c ch => .index hd s t pa d o c ch :: allPagesEntries ch
  | .post hd s t pa d o c => [.post hd s t pa d o c]
  | .orgFile hd s t pa d o c f => [.orgFile hd s t pa d o c f]

/-- All pages reachable from a children map. -/
def allPagesEntries : List (String × Page) → List Page
  | [] => []
  | (_, p) :: rest => Page.allPages p ++ allPagesEntries rest

end

/-- The strict descendants of a page: every page strictly below it. -/
def Page.descendants (p : Page) : List Page :=
  allPagesEntries p.childrenList

/-! ## The macro processor (src/macros.rs) -/

/-- A parsed macro definition: its label, declared parameter names and
body (the Macro struct of src/macros.rs). -/
structure MacroDef where
  label : String
  arguments : List String
  definition : String

/-- Find the closing double brace of a template variable, returning the
name characters and the remaining input. -/
def findVarEnd : List Char → Option (List Char × List Char)
  | '}' :: '}' :: rest => some ([], rest)
  | c :: rest =>
    match findVarEnd rest with
    | some (k, r) => some (c :: k, r)
    | none => none
  | [] => none

/-- Modelled from the spec: the external tera template engine, which the
spec treats as a collaborator that is given text plus data and returns a
string.  Each double-braced variable is replaced by its context value
(the variable name is trimmed); an unclosed variable or an unknown name
is a render error, represented by none.  Recursion is driven by a fuel
argument so that the function is structural. -/
def renderFuel (ctx : List (String × String)) : Nat → List Char → Option (List Char)
  | _, [] => some []
  | 0, _ => none
  | fuel + 1, '{' :: '{' :: rest =>
    (match findVarEnd rest with
     | none => none
     | some (k, r) =>
       match List.lookup (String.mk (trimChars k)) ctx with
       | none => none
       | some v => (renderFuel ctx fuel r).map (fun out => v.data ++ out))
  | fuel + 1, c :: rest => (renderFuel ctx fuel rest).map (fun out => c :: out)

/-- Render a template against a context (model of tera render on the
macro pseudo-template registered by src/macros.rs). -/
def renderTemplateStr (ctx : List (String × String)) (template : String) : Option String :=
  (renderFuel ctx template.data.length template.data).map String.mk

/-- MacroProcessor process of src/macros.rs lines 119 to 141: split the
call arguments at commas, trim each, fail when the count differs from
the declared parameter count, otherwise render the macro body with the
parameters bound positionally. -/
def MacroDef.process (m : MacroDef) (callArguments : String) : Except String String :=
  let args := (splitOnComma callArguments.data).map (fun l => String.mk (trimChars l))
  if args.length ≠ m.arguments.length then
    .error ("macro call argument count mismatch for " ++ m.label)
  else
    match renderTemplateStr (m.arguments.zip args) m.definition with
    | some content => .ok content
    | none => .error ("failed to render macro " ++ m.label)

/-- The argument string the exporter passes to the macro processor
(src/render.rs line 314): the inline call arguments, or the empty string
when the call carries none. -/
def macroCallArgs (arguments : Option String) : String :=
  arguments.getD ""

/-! ## Arguments and configuration (src/args.rs and src/config.rs) -/

/-- The build mode (SorgMode of src/args.rs). -/
inductive SorgMode where
  | run
  | serve
  | watch
  | folders (generateGitignore : Bool)
  deriving DecidableEq

/-- The parsed command-line arguments (Args of src/args.rs). -/
structure Args where
  mode : SorgMode
  path : String
  verbose : Bool

/-- is_release of src/args.rs: only the plain run mode is a release
build. -/
def Args.is_release (a : Args) : Bool :=
  a.mode = SorgMode.run

/-- is_hotreloading of src/args.rs. -/
def Args.is_hotreloading (a : Args) : Bool :=
  a.mode = SorgMode.watch

/-- The directory part of the input path (PathBuf pop in
Args::root_folder): drop the final path component. -/
def parentDir (p : String) : String :=
  (String.mk (((p.data.reverse.dropWhile (fun c => c ≠ '/')).drop 1).reverse))

/-- root_folder of src/args.rs. -/
def Args.root_folder (a : Args) : String :=
  parentDir a.path

/-- The configuration record (Config of src/config.rs).  The virtual
filesystem paths of the source are modelled as the joined path
strings. -/
structure Config where
  root_folder : String
  build_folder : String
  templates_folder : String
  build_path : String
  static_path : String
  templates_path : String
  verbose : Bool
  release : Bool
  hotreloading : Bool
  preamble : List (String × String)
  url : String
  title : String
  description : String

/-- Config new of src/config.rs lines 55 to 122.  The keywords argument
is the document preamble keyword list produced by the external parser;
collecting it into a map keeps the last binding per key.  The title and
description keywords are required; the url keyword is required only for
a release build, a non-release build uses the localhost url.  The error
messages of the source wrap the keyword name in single quotes, omitted
here. -/
def Config.new (fs : String) (args : Args) (keywords : List (String × String)) :
    Except String Config :=
  let preamble := collectMap keywords
  match List.lookup "title" preamble with
  | none => .error "Keyword title was not provided"
  | some title =>
    match List.lookup "description" preamble with
    | none => .error "Keyword description was not provided"
    | some description =>
      let urlE : Except String String :=
        if args.is_release then
          match List.lookup "url" preamble with
          | none => .error "Keyword url was not provided"
          | some url => .ok url
        else .ok "http://localhost:1024"
      match urlE with
      | .error e => .error e
      | .ok url =>
        let staticName := (List.lookup "static" preamble).getD "static"
        let buildName := (List.lookup "build" preamble).getD "build"
        let templatesName := (List.lookup "templates" preamble).getD "templates"
        .ok
          { root_folder := args.root_folder
            build_folder := args.root_folder ++ "/" ++ buildName
            templates_folder := args.root_folder ++ "/" ++ templatesName
            build_path := fs ++ "/" ++ buildName
            static_path := fs ++ "/" ++ staticName
            templates_path := fs ++ "/" ++ templatesName
            verbose := args.verbose
            release := args.is_release
            hotreloading := args.is_hotreloading
            preamble := preamble
            url := url
            title := title
            description := description }

/-! ## Template resolution (src/tera.rs lines 85 to 117) -/

/-- Drop every leading slash of a path (str::trim_start_matches). -/
def trimStartSlashes (s : String) : String :=
  String.mk (s.data.dropWhile (fun c => c = '/'))

/-- get_template of src/tera.rs: the template property when set,
otherwise the template file named after the page path when it exists,
otherwise the default index or default template. -/
def get_template (templateNames : List String) (name : Option String) (path : String)
    (index : Bool) : String :=
  let path1 := if path = "/" then "index" else trimStartSlashes path
  match name with
  | some template => template
  | none =>
    if templateNames.contains (path1 ++ ".html") then path1 ++ ".html"
    else if index then "default_index.html"
    else "default.html"

/-- The renderer resolves the template name by an exact-key lookup of
the template property (src/render.rs line 53 and src/template.rs line
21): the page property map is built from the authored property list with
case-sensitive keys, later duplicates overwriting earlier ones. -/
def templateNameProperty (properties : List (String × String)) : Option String :=
  List.lookup "template" (collectMap properties)

/-! ## Concrete documents used as test inputs -/

/-- A heading tagged noexport. -/
def noexpH : Heading := .node ⟨"hidden", ["noexport"], none, [], none⟩ []

/-- A plain heading with no tags, keyword or properties. -/
def secondH : Heading := .node ⟨"second page", [], none, [], none⟩ []

/-- The title of a typical root heading named index. -/
def rootT : Title := ⟨"index", [], none, [], none⟩

/-- A post heading carrying the in-review workflow keyword. -/
def progressH : Heading := .node ⟨"my post", ["post"], some "PROGRESS", [], none⟩ []

/-- A plain post heading. -/
def fooPost : Heading := .node ⟨"foo", ["post"], none, [], none⟩ []

/-- A root heading that is itself tagged noexport. -/
def noexpRoot : Heading := .node ⟨"index", ["noexport"], none, [], none⟩ []

/-- The page built for the plain post child of the example root. -/
def fooPage : Page := .post fooPost "foo" "foo" "/foo" none 0 none

/-- The page built for the plain second heading of the example root. -/
def secondPage : Page := .index secondH "second-page" "second page" "/second-page" none 1 none []

/-- The example macro of the spec scenario: two parameters and a body
greeting both. -/
def exMacroDef : MacroDef := ⟨"test", ["name", "surname"], "hello {{name}} {{surname}}"⟩

/-- A macro with zero declared parameters. -/
def zeroArgMacroDef : MacroDef := ⟨"z", [], "body"⟩

/-- Arguments selecting the serve mode, which is not a release build. -/
def serveArgs : Args := ⟨.serve, "./blog.org", false⟩

/-! ## Lemmas about the association-list map -/

theorem mem_insertReplace {α : Type} {m : List (String × α)} {k : String} {v : α}
    {e : String × α} (h : e ∈ insertReplace m k v) : e = (k, v) ∨ e ∈ m := by
  induction m with
  | nil => simpa [insertReplace] using h
  | cons kv rest ih =>
    obtain ⟨k1, v1⟩ := kv
    simp only [insertReplace] at h
    split at h
    · rcases List.mem_cons.mp h with h1 | h1
      · exact Or.inl h1
      · exact Or.inr (List.mem_cons_of_mem _ h1)
    · rcases List.mem_cons.mp h with h1 | h1
      · exact Or.inr (by simp [h1])
      · rcases ih h1 with h2 | h2
        · exact Or.inl h2
        · exact Or.inr (List.mem_cons_of_mem _ h2)

theorem mem_foldl_insertReplace {α : Type} {e : String × α} :
    ∀ (l m : List (String × α)),
      e ∈ l.foldl (fun m kv => insertReplace m kv.1 kv.2) m → e ∈ m ∨ e ∈ l := by
  intro l
  induction l with
  | nil => intro m h; exact Or.inl h
  | cons kv rest ih =>
    intro m h
    rcases ih (insertReplace m kv.1 kv.2) h with h2 | h2
    · rcases mem_insertReplace h2 with h3 | h3
      · exact Or.inr (by simp [h3])
      · exact Or.inl h3
    · exact Or.inr (List.mem_cons_of_mem _ h2)

theorem mem_collectMap {α : Type} {l : List (String × α)} {e : String × α}
    (h : e ∈ collectMap l) : e ∈ l := by
  rcases mem_foldl_insertReplace l [] h with h2 | h2
  · simp at h2
  · exact h2

theorem insertReplace_cons_eq {α : Type} (rest : List (String × α)) (k : String) (v1 v : α) :
    insertReplace ((k, v1) :: rest) k v = (k, v) :: rest := by
  simp [insertReplace]

theorem insertReplace_cons_ne {α : Type} (rest : List (String × α)) (k1 k : String)
    (v1 v : α) (hk : k1 ≠ k) :
    insertReplace ((k1, v1) :: rest) k v = (k1, v1) :: insertReplace rest k v := by
  simp [insertReplace, hk]

theorem mem_keys_insertReplace {α : Type} {m : List (String × α)} {k a : String} {v : α} :
    a ∈ (insertReplace m k v).map Prod.fst ↔ a = k ∨ a ∈ m.map Prod.fst := by
  induction m with
  | nil => simp [insertReplace]
  | cons kv rest ih =>
    obtain ⟨k1, v1⟩ := kv
    by_cases hk : k1 = k
    · subst hk
      rw [insertReplace_cons_eq]
      simp only [List.map_cons, List.mem_cons]
      tauto
    · rw [insertReplace_cons_ne rest k1 k v1 v hk]
      simp only [List.map_cons, List.mem_cons, ih]
      tauto

theorem nodup_keys_insertReplace {α : Type} {m : List (String × α)} {k : String} {v : α}
    (h : (m.map Prod.fst).Nodup) : ((insertReplace m k v).map Prod.fst).Nodup := by
  induction m with
  | nil => simp [insertReplace]
  | cons kv rest ih =>
    obtain ⟨k1, v1⟩ := kv
    simp only [List.map_cons, List.nodup_cons] at h
    by_cases hk : k1 = k
    · subst hk
      rw [insertReplace_cons_eq]
      simp only [List.map_cons, List.nodup_cons]
      exact ⟨h.1, h.2⟩
    · rw [insertReplace_cons_ne rest k1 k v1 v hk]
      simp only [List.map_cons, List.nodup_cons]
      refine ⟨fun hmem => ?_, ih h.2⟩
      rcases mem_keys_insertReplace.mp hmem with h3 | h3
      · exact hk h3
      · exact h.1 h3

theorem nodup_keys_collectMap {α : Type} (l : List (String × α)) :
    ((collectMap l).map Prod.fst).Nodup := by
  suffices h : ∀ (l2 m : List (String × α)), (m.map Prod.fst).Nodup →
      ((l2.foldl (fun m kv => insertReplace m kv.1 kv.2) m).map Prod.fst).Nodup from
    h l [] (by simp)
  intro l2
  induction l2 with
  | nil => intro m hm; exact hm
  | cons kv rest ih => intro m hm; exact ih _ (nodup_keys_insertReplace hm)

theorem lookup_cons_beq {α : Type} (s k : String) (v : α) (rest : List (String × α)) :
    List.lookup s ((k, v) :: rest) = if s = k then some v else List.lookup s rest := by
  by_cases hs : s = k
  · have hb : (s == k) = true := beq_iff_eq.mpr hs
    simp [List.lookup, hb, hs]
  · have hb : (s == k) = false := beq_eq_false_iff_ne.mpr hs
    simp [List.lookup, hb, hs]

theorem lookup_insertReplace {α : Type} (m : List (String × α)) (s k : String) (v : α) :
    List.lookup s (insertReplace m k v) = if s = k then some v else List.lookup s m := by
  induction m with
  | nil =>
    show List.lookup s [(k, v)] = _
    rw [lookup_cons_beq]
  | cons kv rest ih =>
    obtain ⟨k1, v1⟩ := kv
    by_cases hk : k1 = k
    · subst hk
      rw [insertReplace_cons_eq, lookup_cons_beq, lookup_cons_beq]
      by_cases hs : s = k1 <;> simp [hs]
    · rw [insertReplace_cons_ne rest k1 k v1 v hk, lookup_cons_beq, lookup_cons_beq, ih]
      by_cases hs : s = k1
      · subst hs
        have hs2 : ¬s = k := hk
        simp [hs2]
      · simp [hs]

theorem lookup_foldl_insertReplace {α : Type} (s : String) :
    ∀ (l m : List (String × α)),
      List.lookup s (l.foldl (fun m kv => insertReplace m kv.1 kv.2) m)
        = (match findLast s l with
           | some w => some w
           | none => List.lookup s m) := by
  intro l
  induction l with
  | nil => intro m; rfl
  | cons kv rest ih =>
    intro m
    obtain ⟨k, v⟩ := kv
    simp only [List.foldl_cons, ih, findLast]
    cases hf : findLast s rest with
    | some w => rfl
    | none =>
      rw [lookup_insertReplace]
      by_cases hs : s = k
      · rw [if_pos hs, if_pos hs.symm]
      · rw [if_neg hs, if_neg (fun h2 => hs h2.symm)]

theorem lookup_collectMap {α : Type} (s : String) (l : List (String × α)) :
    List.lookup s (collectMap l) = findLast s l := by
  rw [collectMap, lookup_foldl_insertReplace]
  cases hf : findLast s l with
  | some w => rfl
  | none => simp [List.lookup]

theorem getLast?_cons_eq {α : Type} (a : α) (l : List α) :
    (a :: l).getLast? = some (l.getLast?.getD a) := by
  induction l generalizing a with
  | nil => rfl
  | cons b t ih => rw [List.getLast?_cons_cons, ih b]; rfl

theorem findLast_map_eq_filter_getLast {α : Type} (f : α → String) (s : String) :
    ∀ l : List α,
      findLast s (l.map (fun p => (f p, p))) = (l.filter (fun p => f p == s)).getLast? := by
  intro l
  induction l with
  | nil => rfl
  | cons a t ih =>
    simp only [List.map_cons, findLast, ih, List.filter_cons]
    by_cases hfa : f a = s
    · simp only [hfa, beq_self_eq_true, if_pos, if_true]
      rw [getLast?_cons_eq]
      cases hl : (t.filter (fun p => f p == s)).getLast? with
      | some w => simp
      | none => simp [hfa]
    · have hba : (f a == s) = false := beq_eq_false_iff_ne.mpr hfa
      simp only [hba, Bool.false_eq_true, if_false, if_neg hfa]
      cases hl : (t.filter (fun p => f p == s)).getLast? with
      | some w => simp
      | none => simp

/-! ## Lemmas about the tree builder -/

theorem parse_index_headline (kws : Keywords) (h : Heading) (path : String) (o : Nat) :
    (parse_index kws h path o).headline = h := by
  cases h; rfl

theorem parse_index_order (kws : Keywords) (h : Heading) (path : String) (o : Nat) :
    (parse_index kws h path o).order = o := by
  cases h; rfl

theorem parse_index_slug (kws : Keywords) (h : Heading) (path : String) (o : Nat) :
    (parse_index kws h path o).slug = get_slug h.titleOf (titleStringOf h.titleOf) := by
  cases h; rfl

theorem parse_index_isIndex (kws : Keywords) (h : Heading) (path : String) (o : Nat) :
    (parse_index kws h path o).isIndex = true := by
  cases h; rfl

theorem parse_index_path (kws : Keywords) (h : Heading) (path : String) (o : Nat) :
    (parse_index kws h path o).path
      = (if accPath h.titleOf path = "" then "/" else accPath h.titleOf path) := by
  cases h; rfl

theorem parse_index_childrenList (kws : Keywords) (h : Heading) (path : String) (o : Nat) :
    (parse_index kws h path o).childrenList
      = collectMap ((parseChildren kws (h.titleOf.tags.contains "posts")
          (accPath h.titleOf path) 0 h.childrenOf).map (fun p => (p.slug, p))) := by
  cases h; rfl

theorem parseChildren_cons (kws : Keywords) (pip : Bool) (path : String) (i : Nat)
    (c : Heading) (rest : List Heading) :
    parseChildren kws pip path i (c :: rest)
      = (classifyChild kws pip path i c).toList
          ++ parseChildren kws pip path (i + 1) rest := rfl

theorem mem_parseChildren {kws : Keywords} {pip : Bool} {path : String} {p : Page} :
    ∀ {cs : List Heading} {i : Nat}, p ∈ parseChildren kws pip path i cs →
      ∃ j c, cs[j]? = some c ∧ classifyChild kws pip path (i + j) c = some p := by
  intro cs
  induction cs with
  | nil => intro i h; simp [parseChildren] at h
  | cons c rest ih =>
    intro i h
    rw [parseChildren_cons] at h
    rcases List.mem_append.mp h with h1 | h1
    · refine ⟨0, c, by simp, ?_⟩
      cases hcc : classifyChild kws pip path i c with
      | none => rw [hcc] at h1; simp at h1
      | some q =>
        rw [hcc] at h1
        simp only [Option.toList_some, List.mem_singleton] at h1
        subst h1
        simpa using hcc
    · rcases ih h1 with ⟨j, c2, hget, hcl⟩
      refine ⟨j + 1, c2, by simpa using hget, ?_⟩
      have harith : i + (j + 1) = (i + 1) + j := by omega
      rw [harith]
      exact hcl

theorem parseChildren_append (kws : Keywords) (pip : Bool) (path : String) :
    ∀ (l1 l2 : List Heading) (i : Nat),
      parseChildren kws pip path i (l1 ++ l2)
        = parseChildren kws pip path i l1 ++ parseChildren kws pip path (i + l1.length) l2 := by
  intro l1
  induction l1 with
  | nil => intro l2 i; simp [parseChildren]
  | cons c rest ih =>
    intro l2 i
    rw [List.cons_append, parseChildren_cons, parseChildren_cons, ih l2 (i + 1),
      List.append_assoc]
    have harith : i + 1 + rest.length = i + (rest.length + 1) := by omega
    rw [harith]
    rfl

theorem classifyChild_spec {kws : Keywords} {pip : Bool} {path : String} {j : Nat}
    {c : Heading} {p : Page} (h : classifyChild kws pip path j c = some p) :
    p.order = j ∧ p.headline = c
    ∧ p.slug = get_slug c.titleOf (titleStringOf c.titleOf)
    ∧ c.titleOf.tags.contains "noexport" = false
    ∧ (p.isIndex = true → p = parse_index kws c path j)
    ∧ (p.isIndex = false → p.path = path ++ "/" ++ p.slug) := by
  unfold classifyChild classifyChildAux at h
  by_cases hne : c.titleOf.tags.contains "noexport"
  · rw [if_pos hne] at h
    exact absurd h (by simp)
  · rw [if_neg hne] at h
    simp only [Bool.not_eq_true] at hne
    by_cases hpp : (c.titleOf.tags.contains "post" || pip) = true
    · rw [if_pos hpp] at h
      cases hkw : c.titleOf.keyword with
      | some kw =>
        simp only [hkw] at h
        by_cases hin : kw ∈ kws.1
        · rw [if_pos hin] at h
          exact absurd h (by simp)
        · rw [if_neg hin] at h
          cases hfp : c.titleOf.properties.find? (fun pr => pr.1 == "file") with
          | some kv =>
            simp only [hfp] at h
            cases hfl : parse_file_link kv.2 with
            | some link =>
              simp only [hfl] at h
              obtain rfl := Option.some.inj h
              refine ⟨rfl, rfl, rfl, hne, ?_, ?_⟩ <;> intro hx <;> simp [Page.isIndex, Page.path, Page.slug] at hx ⊢
            | none =>
              simp only [hfl] at h
              obtain rfl := Option.some.inj h
              refine ⟨rfl, rfl, rfl, hne, ?_, ?_⟩ <;> intro hx <;> simp [Page.isIndex, Page.path, Page.slug] at hx ⊢
          | none =>
            simp only [hfp] at h
            obtain rfl := Option.some.inj h
            refine ⟨rfl, rfl, rfl, hne, ?_, ?_⟩ <;> intro hx <;> simp [Page.isIndex, Page.path, Page.slug] at hx ⊢
      | none =>
        simp only [hkw] at h
        cases hfp : c.titleOf.properties.find? (fun pr => pr.1 == "file") with
        | some kv =>
          simp only [hfp] at h
          cases hfl : parse_file_link kv.2 with
          | some link =>
            simp only [hfl] at h
            obtain rfl := Option.some.inj h
            refine ⟨rfl, rfl, rfl, hne, ?_, ?_⟩ <;> intro hx <;> simp [Page.isIndex, Page.path, Page.slug] at hx ⊢
          | none =>
            simp only [hfl] at h
            obtain rfl := Option.some.inj h
            refine ⟨rfl, rfl, rfl, hne, ?_, ?_⟩ <;> intro hx <;> simp [Page.isIndex, Page.path, Page.slug] at hx ⊢
        | none =>
          simp only [hfp] at h
          obtain rfl := Option.some.inj h
          refine ⟨rfl, rfl, rfl, hne, ?_, ?_⟩ <;> intro hx <;> simp [Page.isIndex, Page.path, Page.slug] at hx ⊢
    · rw [if_neg hpp] at h
      obtain rfl := Option.some.inj h
      refine ⟨parse_index_order kws c path j, parse_index_headline kws c path j,
        parse_index_slug kws c path j, hne, fun _ => rfl, fun hx => ?_⟩
      rw [parse_index_isIndex] at hx
      exact absurd hx (by simp)

theorem classifyChild_notdone {kws : Keywords} {pip : Bool} {path : String} {j : Nat}
    {c : Heading} {kw : String}
    (hpost : c.titleOf.tags.contains "post" = true ∨ pip = true)
    (hkw : c.titleOf.keyword = some kw) (hmem : kw ∈ kws.1) :
    classifyChild kws pip path j c = none := by
  unfold classifyChild classifyChildAux
  by_cases hne : c.titleOf.tags.contains "noexport"
  · rw [if_pos hne]
  · rw [if_neg hne]
    have hpp : (c.titleOf.tags.contains "post" || pip) = true := by
      rcases hpost with h1 | h1 <;> rw [h1] <;> simp
    rw [if_pos hpp]
    simp only [hkw]
    simp only [if_pos hmem]

theorem parseChildren_order_ge {kws : Keywords} {pip : Bool} {path : String}
    {cs : List Heading} {i : Nat} {p : Page}
    (h : p ∈ parseChildren kws pip path i cs) : i ≤ p.order := by
  rcases mem_parseChildren h with ⟨j, c, _, hcl⟩
  have ho := (classifyChild_spec hcl).1
  omega

theorem parseChildren_orders_pairwise (kws : Keywords) (pip : Bool) (path : String) :
    ∀ (cs : List Heading) (i : Nat),
      ((parseChildren kws pip path i cs).map Page.order).Pairwise (· < ·) := by
  intro cs
  induction cs with
  | nil => intro i; simp [parseChildren]
  | cons c rest ih =>
    intro i
    rw [parseChildren_cons, List.map_append]
    apply List.pairwise_append.mpr
    refine ⟨?_, ih (i + 1), ?_⟩
    · cases hcc : classifyChild kws pip path i c <;> simp
    · intro a ha b hb
      have ha2 : a = i := by
        cases hcc : classifyChild kws pip path i c with
        | none => rw [hcc] at ha; simp at ha
        | some q =>
          rw [hcc] at ha
          simp only [Option.toList_some, List.map_cons, List.map_nil,
            List.mem_singleton] at ha
          have ho := (classifyChild_spec hcc).1
          omega
      rcases List.mem_map.mp hb with ⟨q, hq, rfl⟩
      have := parseChildren_order_ge hq
      omega

/-! ## Lemmas about reachable pages -/

theorem allPages_eq (q : Page) : q.allPages = q :: q.descendants := by
  cases q <;> rfl

theorem mem_allPagesEntries {p : Page} :
    ∀ {l : List (String × Page)}, p ∈ allPagesEntries l → ∃ e ∈ l, p ∈ e.2.allPages := by
  intro l
  induction l with
  | nil => intro h; simp [allPagesEntries] at h
  | cons e rest ih =>
    intro h
    obtain ⟨k, q⟩ := e
    rw [show allPagesEntries ((k, q) :: rest) = q.allPages ++ allPagesEntries rest from rfl]
      at h
    rcases List.mem_append.mp h with h1 | h1
    · exact ⟨(k, q), by simp, h1⟩
    · rcases ih h1 with ⟨e2, he2, hp⟩
      exact ⟨e2, List.mem_cons_of_mem _ he2, hp⟩

theorem descendants_of_leaf {q : Page} (h : q.isIndex = false) : q.descendants = [] := by
  cases q with
  | index => simp [Page.isIndex] at h
  | post => rfl
  | orgFile => rfl

theorem sizeOf_lt_of_mem_children (t : Title) {cs : List Heading} {c : Heading}
    (hc : c ∈ cs) : sizeOf c < sizeOf (Heading.node t cs) := by
  have h1 := List.sizeOf_lt_of_mem hc
  simp only [Heading.node.sizeOf_spec]
  omega

theorem noexport_descendants_aux :
    ∀ (n : Nat) (h : Heading), sizeOf h ≤ n → ∀ (kws : Keywords) (path : String)
      (o : Nat) (p : Page), p ∈ (parse_index kws h path o).descendants →
      p.headline.titleOf.tags.contains "noexport" = false := by
  intro n
  induction n with
  | zero =>
    intro h hle
    exfalso
    obtain ⟨t, cs⟩ := h
    simp only [Heading.node.sizeOf_spec] at hle
    omega
  | succ n ih =>
    intro h hle kws path o p hp
    obtain ⟨t, cs⟩ := h
    rw [Page.descendants, parse_index_childrenList] at hp
    rcases mem_allPagesEntries hp with ⟨e, he, hpe⟩
    have he2 := mem_collectMap he
    rcases List.mem_map.mp he2 with ⟨q, hq, rfl⟩
    rcases mem_parseChildren hq with ⟨j, c, hget, hcl⟩
    have hspec := classifyChild_spec hcl
    have hcmem : c ∈ cs := by
      have := List.getElem?_mem hget
      simpa [Heading.childrenOf] using this
    rw [allPages_eq] at hpe
    rcases List.mem_cons.mp hpe with rfl | hpd
    · rw [hspec.2.1]
      exact hspec.2.2.2.1
    · by_cases hidx : q.isIndex = true
      · have hq2 := hspec.2.2.2.2.1 hidx
        rw [hq2] at hpd
        have hsz : sizeOf c ≤ n := by
          have h2 := sizeOf_lt_of_mem_children t hcmem
          simp only [Heading.node.sizeOf_spec] at hle h2
          omega
        exact ih c hsz kws _ _ p hpd
      · rw [descendants_of_leaf (by simpa using hidx)] at hpd
        simp at hpd

/-! ## Claims about the tree builder -/

/-- C1 (corrected).  The claim says each surviving child carries the
zero-based position among the surviving siblings only, the surviving
orders forming 0, 1, 2, ....  In the code the enumeration happens before
the filter, so the order of a surviving child is its position among all
direct children in document order: excluded siblings do consume order
values.  The surviving orders are strictly increasing, and every child
page stored in the built children map is exactly the classification of
the child heading sitting at index order of the full child list. -/
theorem order_counts_excluded_siblings (kws : Keywords) (t : Title) (cs : List Heading)
    (path : String) (order : Nat) :
    ((parseChildren kws (t.tags.contains "posts") (accPath t path) 0 cs).map
        Page.order).Pairwise (· < ·)
    ∧ ∀ e ∈ (parse_index kws (.node t cs) path order).childrenList,
        ∃ c, cs[e.2.order]? = some c
          ∧ classifyChild kws (t.tags.contains "posts") (accPath t path) e.2.order c
              = some e.2 := by
  constructor
  · exact parseChildren_orders_pairwise kws _ _ cs 0
  · intro e he
    rw [parse_index_childrenList] at he
    simp only [Heading.titleOf, Heading.childrenOf] at he
    have he2 := mem_collectMap he
    rcases List.mem_map.mp he2 with ⟨q, hq, rfl⟩
    rcases mem_parseChildren hq with ⟨j, c, hget, hcl⟩
    have ho : q.order = j := by
      have := (classifyChild_spec hcl).1
      omega
    have hj : (0 : Nat) + j = j := by omega
    rw [hj] at hcl
    refine ⟨c, ?_, ?_⟩
    · show cs[q.order]? = some c
      rw [ho]
      exact hget
    · show classifyChild kws (t.tags.contains "posts") (accPath t path) q.order c = some q
      rw [ho]
      exact hcl

/-- C1 counterexample: in the document with root index and children
noexpH then secondH, the only surviving child carries order 1 even
though it is the first (position 0) surviving sibling, so the surviving
orders are not the consecutive values starting at 0 that the claim
requires. -/
theorem order_counts_excluded_siblings_counterexample :
    ((parse_index todos (.node rootT [noexpH, secondH]) "" 0).childrenList.map
        (fun e => e.2.order)) = [1] := by rfl

/-- C1 witness: the corrected theorem applied to the two-child document,
at the surviving child page. -/
theorem order_counts_excluded_siblings_witness :
    ∃ c, [noexpH, secondH][(("second-page", secondPage) : String × Page).2.order]? = some c
      ∧ classifyChild todos (rootT.tags.contains "posts") (accPath rootT "")
          (("second-page", secondPage) : String × Page).2.order c = some secondPage :=
  (order_counts_excluded_siblings todos rootT [noexpH, secondH] "" 0).2
    ("second-page", secondPage) (List.mem_singleton.mpr rfl)

theorem parseChildrenR_cons (kws : Keywords) (release pip : Bool) (path : String)
    (i : Nat) (c : Heading) (rest : List Heading) :
    parseChildrenR kws release pip path i (c :: rest)
      = (classifyChildR kws release pip path i c).toList
          ++ parseChildrenR kws release pip path (i + 1) rest := rfl

theorem parseChildrenR_append (kws : Keywords) (release pip : Bool) (path : String) :
    ∀ (l1 l2 : List Heading) (i : Nat),
      parseChildrenR kws release pip path i (l1 ++ l2)
        = parseChildrenR kws release pip path i l1
          ++ parseChildrenR kws release pip path (i + l1.length) l2 := by
  intro l1
  induction l1 with
  | nil => intro l2 i; simp [parseChildrenR]
  | cons c rest ih =>
    intro l2 i
    rw [List.cons_append, parseChildrenR_cons, parseChildrenR_cons, ih l2 (i + 1),
      List.append_assoc]
    have harith : i + 1 + rest.length = i + (rest.length + 1) := by omega
    rw [harith]
    rfl

theorem classifyChildR_excluded {kws : Keywords} {release pip : Bool} {path : String}
    {j : Nat} {c : Heading} {kw : String}
    (hpost : c.titleOf.tags.contains "post" = true ∨ pip = true)
    (hkw : c.titleOf.keyword = some kw)
    (hexc : keywordExcluded kws release kw = true) :
    classifyChildR kws release pip path j c = none := by
  unfold classifyChildR classifyChildAuxR
  by_cases hne : c.titleOf.tags.contains "noexport"
  · rw [if_pos hne]
  · rw [if_neg hne]
    have hpp : (c.titleOf.tags.contains "post" || pip) = true := by
      rcases hpost with h1 | h1 <;> rw [h1] <;> simp
    rw [if_pos hpp]
    simp only [hkw]
    simp only [if_pos hexc]

theorem classifyChildR_not_excluded {kws : Keywords} {release pip : Bool}
    {path : String} {j : Nat} {c : Heading} {kw : String}
    (hne : c.titleOf.tags.contains "noexport" = false)
    (hpost : c.titleOf.tags.contains "post" = true ∨ pip = true)
    (hkw : c.titleOf.keyword = some kw)
    (hexc : keywordExcluded kws release kw = false) :
    ∃ p, classifyChildR kws release pip path j c = some p ∧ p.headline = c
      ∧ p.isIndex = false := by
  unfold classifyChildR classifyChildAuxR
  have hne2 : ¬(c.titleOf.tags.contains "noexport" = true) := by rw [hne]; simp
  rw [if_neg hne2]
  have hpp : (c.titleOf.tags.contains "post" || pip) = true := by
    rcases hpost with h1 | h1 <;> rw [h1] <;> simp
  rw [if_pos hpp]
  simp only [hkw]
  rw [if_neg (by simp [hexc])]
  cases hfp : c.titleOf.properties.find? (fun pr => pr.1 == "file") with
  | some kv =>
    simp only [hfp]
    cases hfl : parse_file_link kv.2 with
    | some link =>
      simp only [hfl]
      exact ⟨_, rfl, rfl, rfl⟩
    | none =>
      simp only [hfl]
      exact ⟨_, rfl, rfl, rfl⟩
  | none =>
    simp only [hfp]
    exact ⟨_, rfl, rfl, rfl⟩

/-- C2 (confirmed).  In the release-aware builder the staged call sites
target (modelled from the spec, its source file being absent from
src/), every post-classified heading whose workflow keyword is in the
not-done set contributes no page to a release-mode build; and when that
keyword is the designated in-review keyword, the heading does produce a
page in a non-release (draft or watch) build, which appears in the
children built for its parent. -/
theorem notdone_keyword_release_filter (kws : Keywords) (release : Bool) (pip : Bool)
    (path : String) (i : Nat) (c : Heading) (kw : String)
    (hpost : c.titleOf.tags.contains "post" = true ∨ pip = true)
    (hkw : c.titleOf.keyword = some kw) (hmem : kw ∈ kws.1) :
    (release = true → classifyChildR kws release pip path i c = none
      ∧ ∀ cs1 cs2, parseChildrenR kws release pip path i (cs1 ++ c :: cs2)
          = parseChildrenR kws release pip path i cs1
            ++ parseChildrenR kws release pip path (i + cs1.length + 1) cs2)
    ∧ (release = false → kw = inReviewKeyword →
        c.titleOf.tags.contains "noexport" = false →
        ∃ p, classifyChildR kws release pip path i c = some p ∧ p.headline = c
          ∧ ∀ rest, p ∈ parseChildrenR kws release pip path i (c :: rest)) := by
  constructor
  · intro hr
    subst hr
    have hexc : keywordExcluded kws true kw = true := by
      simp [keywordExcluded, hmem]
    refine ⟨classifyChildR_excluded hpost hkw hexc, fun cs1 cs2 => ?_⟩
    rw [parseChildrenR_append, parseChildrenR_cons,
      @classifyChildR_excluded kws true pip path (i + cs1.length) c kw hpost hkw hexc]
    simp [Nat.add_assoc]
  · intro hr hkw2 hne
    subst hr
    have hexc : keywordExcluded kws false kw = false := by
      simp [keywordExcluded, hkw2]
    rcases classifyChildR_not_excluded hne hpost hkw hexc with ⟨p, hcp, hhd, _⟩
    refine ⟨p, hcp, hhd, fun rest => ?_⟩
    rw [parseChildrenR_cons, hcp]
    simp

/-- C2 witness: the theorem applied to the PROGRESS post heading with
the build keyword configuration, in release and in non-release mode,
together with the built trees of the one-post document in both modes:
the release tree has no child, the draft tree keeps the page. -/
theorem notdone_keyword_release_filter_witness :
    (runTree true (.node rootT [progressH])).childrenList = []
    ∧ ((runTree false (.node rootT [progressH])).childrenList.map
        (fun e => e.2.headline)) = [progressH]
    ∧ classifyChildR todos true false "" 0 progressH = none
    ∧ ∃ p, classifyChildR todos false false "" 0 progressH = some p
        ∧ p.headline = progressH
        ∧ ∀ rest, p ∈ parseChildrenR todos false false "" 0 (progressH :: rest) :=
  ⟨rfl, rfl,
    ((notdone_keyword_release_filter todos true false "" 0 progressH "PROGRESS"
      (Or.inl rfl) rfl (by decide)).1 rfl).1,
    (notdone_keyword_release_filter todos false false "" 0 progressH "PROGRESS"
      (Or.inl rfl) rfl (by decide)).2 rfl rfl rfl⟩

/-- C3 (corrected).  The claim says a noexport tag excludes a heading at
any depth, including the root heading passed to the builder.  The code
checks noexport only inside the child filter, so every page strictly
below the root has a headline without the noexport tag, but the root
heading itself is never checked. -/
theorem noexport_excluded_below_root (kws : Keywords) (h : Heading) (path : String)
    (o : Nat) (p : Page) (hp : p ∈ (parse_index kws h path o).descendants) :
    p.headline.titleOf.tags.contains "noexport" = false :=
  noexport_descendants_aux (sizeOf h) h (Nat.le_refl _) kws path o p hp

/-- C3 counterexample: a root heading tagged noexport still produces a
page whose headline is that heading, refuting the claim for the root. -/
theorem noexport_excluded_below_root_counterexample :
    (parse_index todos noexpRoot "" 0) ∈ (parse_index todos noexpRoot "" 0).allPages
    ∧ (parse_index todos noexpRoot "" 0).headline = noexpRoot
    ∧ noexpRoot.titleOf.tags.contains "noexport" = true := by
  refine ⟨?_, rfl, rfl⟩
  rw [allPages_eq]
  exact List.mem_cons_self _ _

/-- C3 witness: the corrected theorem applied to the single descendant
of a one-post document. -/
theorem noexport_excluded_below_root_witness :
    fooPage ∈ (parse_index todos (.node rootT [fooPost]) "" 0).descendants
    ∧ fooPage.headline.titleOf.tags.contains "noexport" = false :=
  ⟨List.mem_singleton.mpr rfl,
    noexport_excluded_below_root todos (.node rootT [fooPost]) "" 0 fooPage
      (List.mem_singleton.mpr rfl)⟩

/-- C4 (corrected).  The claim relates every child path to the parent
path field.  The code computes child paths from the accumulated path
before the empty-path normalization: the page path field equals the
accumulated path normalized to the root slash when empty, but when that
normalization fires (parent path field is the bare slash, accumulated
path empty) children get slash plus slug, not the parent path field plus
slash plus slug.  Post and org-file children always get the accumulated
path plus slash plus slug; an index child gets the accumulated path
extended by its slug unless its slug is the sentinel index, normalized
to the root slash when empty. -/
theorem child_paths_follow_accumulated_path (kws : Keywords) (t : Title)
    (cs : List Heading) (path : String) (order : Nat) :
    (parse_index kws (.node t cs) path order).path
      = (if accPath t path = "" then "/" else accPath t path)
    ∧ ∀ e ∈ (parse_index kws (.node t cs) path order).childrenList,
        (e.2.isIndex = false → e.2.path = accPath t path ++ "/" ++ e.2.slug)
        ∧ (e.2.isIndex = true →
            e.2.path = (if (if e.2.slug = "index" then accPath t path
                            else accPath t path ++ "/" ++ e.2.slug) = ""
                        then "/"
                        else (if e.2.slug = "index" then accPath t path
                              else accPath t path ++ "/" ++ e.2.slug))) := by
  constructor
  · have h1 := parse_index_path kws (.node t cs) path order
    simpa only [Heading.titleOf] using h1
  · intro e he
    rw [parse_index_childrenList] at he
    simp only [Heading.titleOf, Heading.childrenOf] at he
    have he2 := mem_collectMap he
    rcases List.mem_map.mp he2 with ⟨q, hq, rfl⟩
    rcases mem_parseChildren hq with ⟨j, c, hget, hcl⟩
    have hspec := classifyChild_spec hcl
    constructor
    · intro hni
      exact hspec.2.2.2.2.2 hni
    · intro hii
      have hqe := hspec.2.2.2.2.1 hii
      show q.path = _
      rw [hqe, parse_index_path, parse_index_slug]
      simp only [accPath]
      by_cases hs : get_slug c.titleOf (titleStringOf c.titleOf) = "index"
      · simp [hs]
      · simp [hs]

/-- C4 counterexample: at the root the accumulated path is empty, the
root path field is the bare slash, and the post child path is slash foo,
which differs from the parent path field plus slash plus slug. -/
theorem child_paths_counterexample :
    ((parse_index todos (.node rootT [fooPost]) "" 0).childrenList.map
        (fun e => e.2.path)) = ["/foo"]
    ∧ (parse_index todos (.node rootT [fooPost]) "" 0).path = "/"
    ∧ ("/foo" : String) ≠ "/" ++ "/" ++ "foo" := ⟨rfl, rfl, by decide⟩

/-- C4 witness: the corrected theorem applied to the post child of the
one-post document. -/
theorem child_paths_witness :
    fooPage.path = accPath rootT "" ++ "/" ++ fooPage.slug :=
  ((child_paths_follow_accumulated_path todos rootT [fooPost] "" 0).2
    ("foo", fooPage) (List.mem_singleton.mpr rfl)).1 rfl

/-- C5 (confirmed).  The children map of every index page has pairwise
distinct slug keys, and the entry stored under a slug is the last
surviving child with that slug in document traversal order; duplicate
slugs therefore never produce two entries and never make the total
builder fail. -/
theorem duplicate_slug_last_child_wins (kws : Keywords) (t : Title) (cs : List Heading)
    (path : String) (order : Nat) :
    ((parse_index kws (.node t cs) path order).childrenList.map Prod.fst).Nodup
    ∧ ∀ s, List.lookup s (parse_index kws (.node t cs) path order).childrenList
        = ((parseChildren kws (t.tags.contains "posts") (accPath t path) 0 cs).filter
            (fun p => p.slug == s)).getLast? := by
  constructor
  · rw [parse_index_childrenList]
    exact nodup_keys_collectMap _
  · intro s
    rw [parse_index_childrenList]
    simp only [Heading.titleOf, Heading.childrenOf]
    rw [lookup_collectMap, findLast_map_eq_filter_getLast]

/-! ## Lemmas about the slug function -/

theorem toNat_ofNat_small {n : Nat} (h : n < 55296) : (Char.ofNat n).toNat = n := by
  rw [Char.ofNat, dif_pos (Or.inl h)]
  simp [Char.ofNatAux, Char.toNat, UInt32.toNat, BitVec.toNat_ofNatLt]

theorem slugChar_range {c d : Char} (h : slugChar c = some d) :
    (97 ≤ d.toNat ∧ d.toNat ≤ 122) ∨ (48 ≤ d.toNat ∧ d.toNat ≤ 57) := by
  unfold slugChar at h
  split_ifs at h with h1 h2 h3
  · obtain rfl := Option.some.inj h
    exact Or.inl h1
  · obtain rfl := Option.some.inj h
    have he : (Char.ofNat (c.toNat + 32)).toNat = c.toNat + 32 :=
      toNat_ofNat_small (by omega)
    rw [he]
    left
    omega
  · obtain rfl := Option.some.inj h
    exact Or.inr h3

theorem slugChar_of_range {d : Char}
    (h : (97 ≤ d.toNat ∧ d.toNat ≤ 122) ∨ (48 ≤ d.toNat ∧ d.toNat ≤ 57)) :
    slugChar d = some d := by
  unfold slugChar
  rcases h with h1 | h1
  · rw [if_pos h1]
  · rw [if_neg (by omega), if_neg (by omega), if_pos h1]

theorem slugRuns_cons_none {c : Char} (h : slugChar c = none) (rest : List Char) :
    slugRuns (c :: rest) = [] :: slugRuns rest := by
  rw [slugRuns, h]

theorem slugRuns_cons_some_nil {c d : Char} (h : slugChar c = some d) {rest : List Char}
    (h2 : slugRuns rest = []) : slugRuns (c :: rest) = [[d]] := by
  rw [slugRuns, h, h2]

theorem slugRuns_cons_some_cons {c d : Char} (h : slugChar c = some d) {rest : List Char}
    {r0 : List Char} {rs : List (List Char)} (h2 : slugRuns rest = r0 :: rs) :
    slugRuns (c :: rest) = (d :: r0) :: rs := by
  rw [slugRuns, h, h2]

theorem slugRuns_all_kept :
    ∀ (l : List Char), ∀ r ∈ slugRuns l, ∀ x ∈ r,
      (97 ≤ x.toNat ∧ x.toNat ≤ 122) ∨ (48 ≤ x.toNat ∧ x.toNat ≤ 57) := by
  intro l
  induction l with
  | nil => intro r hr; simp [slugRuns] at hr
  | cons c rest ih =>
    intro r hr x hx
    cases hsc : slugChar c with
    | none =>
      rw [slugRuns_cons_none hsc] at hr
      rcases List.mem_cons.mp hr with rfl | hr2
      · simp at hx
      · exact ih r hr2 x hx
    | some d =>
      cases hrr : slugRuns rest with
      | nil =>
        rw [slugRuns_cons_some_nil hsc hrr] at hr
        rcases List.mem_cons.mp hr with rfl | hr2
        · rcases List.mem_cons.mp hx with rfl | hx2
          · exact slugChar_range hsc
          · simp at hx2
        · simp at hr2
      | cons r0 rs =>
        rw [slugRuns_cons_some_cons hsc hrr] at hr
        rcases List.mem_cons.mp hr with rfl | hr2
        · rcases List.mem_cons.mp hx with rfl | hx2
          · exact slugChar_range hsc
          · exact ih r0 (by rw [hrr]; exact List.mem_cons_self _ _) x hx2
        · exact ih r (by rw [hrr]; exact List.mem_cons_of_mem _ hr2) x hx

theorem slugWords_spec (l : List Char) :
    ∀ w ∈ slugWords l, w ≠ [] ∧ ∀ x ∈ w, slugChar x = some x := by
  intro w hw
  rw [slugWords] at hw
  have hmem := List.mem_of_mem_filter hw
  have hpred := List.of_mem_filter hw
  constructor
  · intro h
    subst h
    simp at hpred
  · intro x hx
    exact slugChar_of_range (slugRuns_all_kept l w hmem x hx)

theorem slugRuns_append_word (sep : Char) (hsep : slugChar sep = none) (l : List Char) :
    ∀ (w : List Char), (∀ x ∈ w, slugChar x = some x) →
      slugRuns (w ++ sep :: l) = w :: slugRuns l := by
  intro w
  induction w with
  | nil => intro _; simpa using slugRuns_cons_none hsep l
  | cons a w2 ih =>
    intro hw
    have ha : slugChar a = some a := hw a (List.mem_cons_self _ _)
    have ih2 := ih (fun x hx => hw x (List.mem_cons_of_mem _ hx))
    rw [List.cons_append]
    exact slugRuns_cons_some_cons ha ih2

theorem slugRuns_kept_word :
    ∀ (w : List Char), w ≠ [] → (∀ x ∈ w, slugChar x = some x) → slugRuns w = [w] := by
  intro w
  induction w with
  | nil => intro h; exact absurd rfl h
  | cons a w2 ih =>
    intro _ hw
    have ha : slugChar a = some a := hw a (List.mem_cons_self _ _)
    by_cases h2 : w2 = []
    · subst h2
      exact slugRuns_cons_some_nil ha rfl
    · exact slugRuns_cons_some_cons ha (ih h2 (fun x hx => hw x (List.mem_cons_of_mem _ hx)))

theorem slugWords_joinWords :
    ∀ (ws : List (List Char)), (∀ w ∈ ws, w ≠ [] ∧ ∀ x ∈ w, slugChar x = some x) →
      slugWords (joinWords ws) = ws := by
  intro ws
  induction ws with
  | nil => intro _; rfl
  | cons w ws2 ih =>
    intro hws
    obtain ⟨hne, hkept⟩ := hws w (List.mem_cons_self _ _)
    cases ws2 with
    | nil =>
      show slugWords w = [w]
      rw [slugWords, slugRuns_kept_word w hne hkept]
      simp [hne]
    | cons w2 ws3 =>
      have ih2 := ih (fun u hu => hws u (List.mem_cons_of_mem _ hu))
      show slugWords (w ++ '-' :: joinWords (w2 :: ws3)) = w :: w2 :: ws3
      rw [slugWords, slugRuns_append_word '-' rfl (joinWords (w2 :: ws3)) w hkept,
        List.filter_cons]
      have hne2 : (!w.isEmpty) = true := by
        cases w with
        | nil => exact absurd rfl hne
        | cons => rfl
      rw [if_pos hne2]
      rw [show (slugRuns (joinWords (w2 :: ws3))).filter (fun r => !r.isEmpty)
          = slugWords (joinWords (w2 :: ws3)) from rfl, ih2]

theorem mem_joinWords {x : Char} :
    ∀ {ws : List (List Char)}, x ∈ joinWords ws → x = '-' ∨ ∃ w ∈ ws, x ∈ w := by
  intro ws
  induction ws with
  | nil => intro h; simp [joinWords] at h
  | cons w ws2 ih =>
    intro h
    cases ws2 with
    | nil =>
      exact Or.inr ⟨w, List.mem_cons_self _ _, by simpa [joinWords] using h⟩
    | cons w2 ws3 =>
      rw [show joinWords (w :: w2 :: ws3) = w ++ '-' :: joinWords (w2 :: ws3) from rfl] at h
      rcases List.mem_append.mp h with h1 | h1
      · exact Or.inr ⟨w, List.mem_cons_self _ _, h1⟩
      · rcases List.mem_cons.mp h1 with rfl | h2
        · exact Or.inl rfl
        · rcases ih h2 with h3 | ⟨u, hu, hxu⟩
          · exact Or.inl h3
          · exact Or.inr ⟨u, List.mem_cons_of_mem _ hu, hxu⟩

theorem slugify_idem (x : String) : slugify (slugify x) = slugify x := by
  unfold slugify
  rw [show (String.mk (joinWords (slugWords x.data))).data
      = joinWords (slugWords x.data) from rfl]
  rw [slugWords_joinWords (slugWords x.data) (slugWords_spec x.data)]

theorem slugify_chars (x : String) : ∀ c ∈ (slugify x).data, isSlugOutputChar c = true := by
  intro c hc
  rw [show (slugify x).data = joinWords (slugWords x.data) from rfl] at hc
  rcases mem_joinWords hc with rfl | ⟨w, hw, hcw⟩
  · rfl
  · have hk := (slugWords_spec x.data w hw).2 c hcw
    have hr := slugChar_range hk
    simp only [isSlugOutputChar, Bool.or_eq_true, Bool.and_eq_true, decide_eq_true_eq]
    tauto

/-! ## Claims about slugs, macros, configuration and properties -/

/-- C8 (confirmed).  The slug computation is idempotent and produces
only lowercase ASCII letters, digits and hyphens; get_slug of a title
without a slug property override is exactly the slugified title string
and therefore also of that shape. -/
theorem slugify_idempotent_and_urlsafe (x : String) (t : Title) (ts : String)
    (h : get_property t "slug" = none) :
    slugify (slugify x) = slugify x
    ∧ (∀ c ∈ (slugify x).data, isSlugOutputChar c = true)
    ∧ get_slug t ts = slugify ts
    ∧ ∀ c ∈ (get_slug t ts).data, isSlugOutputChar c = true := by
  have hgs : get_slug t ts = slugify ts := by
    unfold get_slug
    rw [h]
  exact ⟨slugify_idem x, slugify_chars x, hgs, by rw [hgs]; exact slugify_chars ts⟩

/-- C8 witness: the theorem applied to a punctuated mixed-case title on
a title record without properties. -/
theorem slugify_idempotent_witness :
    slugify (slugify "Hello, World!") = slugify "Hello, World!"
    ∧ (∀ c ∈ (slugify "Hello, World!").data, isSlugOutputChar c = true)
    ∧ get_slug ⟨"Hello, World!", [], none, [], none⟩ "Hello, World!"
        = slugify "Hello, World!"
    ∧ ∀ c ∈ (get_slug ⟨"Hello, World!", [], none, [], none⟩ "Hello, World!").data,
        isSlugOutputChar c = true :=
  slugify_idempotent_and_urlsafe "Hello, World!" ⟨"Hello, World!", [], none, [], none⟩
    "Hello, World!" rfl

/-- C6 (confirmed).  The two-parameter example macro invoked with the
argument string of Ann comma Lee expands to the greeting of both, and
for every macro an argument count differing from the declared parameter
count is a reported error, never a silent truncation or padding. -/
theorem macro_argument_count_checked (m : MacroDef) (s : String)
    (h : (splitOnComma s.data).length ≠ m.arguments.length) :
    exMacroDef.process "Ann, Lee" = .ok "hello Ann Lee"
    ∧ ∃ e, m.process s = .error e := by
  refine ⟨rfl, "macro call argument count mismatch for " ++ m.label, ?_⟩
  unfold MacroDef.process
  have hlen : ((splitOnComma s.data).map (fun l => String.mk (trimChars l))).length
      ≠ m.arguments.length := by
    rw [List.length_map]
    exact h
  rw [if_pos hlen]

/-- C6 witness: the theorem applied to the example macro with a
three-argument call. -/
theorem macro_argument_count_witness :
    exMacroDef.process "Ann, Lee" = .ok "hello Ann Lee"
    ∧ ∃ e, exMacroDef.process "a, b, c" = .error e :=
  macro_argument_count_checked exMacroDef "a, b, c" (by decide)

/-- C7 (corrected).  The claim requires the url keyword always; in the
code it is required only for a release build, and a non-release build
uses the localhost url even when the keyword is present.  The title and
description keywords are always required; when construction succeeds the
title and description values are copied, and the url value is copied
exactly in release mode. -/
theorem config_required_keywords (fs : String) (args : Args)
    (kws : List (String × String)) :
    (List.lookup "title" (collectMap kws) = none →
      Config.new fs args kws = .error "Keyword title was not provided")
    ∧ (∀ t, List.lookup "title" (collectMap kws) = some t →
        List.lookup "description" (collectMap kws) = none →
        Config.new fs args kws = .error "Keyword description was not provided")
    ∧ (∀ t d, List.lookup "title" (collectMap kws) = some t →
        List.lookup "description" (collectMap kws) = some d →
        args.is_release = true → List.lookup "url" (collectMap kws) = none →
        Config.new fs args kws = .error "Keyword url was not provided")
    ∧ (∀ t d u, List.lookup "title" (collectMap kws) = some t →
        List.lookup "description" (collectMap kws) = some d →
        args.is_release = true → List.lookup "url" (collectMap kws) = some u →
        ∃ c, Config.new fs args kws = .ok c
          ∧ c.title = t ∧ c.description = d ∧ c.url = u)
    ∧ (∀ t d, List.lookup "title" (collectMap kws) = some t →
        List.lookup "description" (collectMap kws) = some d →
        args.is_release = false →
        ∃ c, Config.new fs args kws = .ok c
          ∧ c.title = t ∧ c.description = d ∧ c.url = "http://localhost:1024") := by
  refine ⟨?_, ?_, ?_, ?_, ?_⟩
  · intro h1
    unfold Config.new
    simp only [h1]
  · intro t h1 h2
    unfold Config.new
    simp only [h1, h2]
  · intro t d h1 h2 hr h3
    unfold Config.new
    simp only [h1, h2, hr, h3, if_true]
  · intro t d u h1 h2 hr h3
    unfold Config.new
    simp only [h1, h2, hr, h3, if_true]
    exact ⟨_, rfl, rfl, rfl, rfl⟩
  · intro t d h1 h2 hr
    unfold Config.new
    simp only [h1, h2, hr, Bool.false_eq_true, if_false]
    exact ⟨_, rfl, rfl, rfl, rfl⟩

/-- C7 counterexample: a serve-mode (non-release) build constructs its
configuration successfully although the url keyword is absent, with the
localhost url, refuting the claim that a missing url keyword always
fails the build. -/
theorem config_url_not_required_counterexample :
    ∃ c, Config.new "" serveArgs [("title", "t"), ("description", "d")] = .ok c
      ∧ c.url = "http://localhost:1024" := ⟨_, rfl, rfl⟩

/-- C7 witness: the corrected theorem applied to a serve-mode build with
title and description present. -/
theorem config_required_keywords_witness :
    ∃ c, Config.new "" serveArgs [("title", "t"), ("description", "d")] = .ok c
      ∧ c.title = "t" ∧ c.description = "d" ∧ c.url = "http://localhost:1024" :=
  (config_required_keywords "" serveArgs [("title", "t"), ("description", "d")]).2.2.2.2
    "t" "d" rfl rfl rfl

/-- C9 (confirmed).  get_property lower-cases the authored property name
before comparing, so any casing of title matches, and the first matching
property wins regardless of later entries; the template lookup of the
renderer is an exact-key map access, so only the exact lowercase
template key matches. -/
theorem property_lookup_case_insensitive (raw : String) (tags : List String)
    (kw : Option String) (cl : Option Timestamp) (n v : String)
    (rest : List (String × String)) (hn : lowerString n = "title") :
    get_property ⟨raw, tags, kw, (n, v) :: rest, cl⟩ "title" = some v
    ∧ templateNameProperty [("Template", v)] = none
    ∧ templateNameProperty [("template", v)] = some v := by
  refine ⟨?_, rfl, rfl⟩
  unfold get_property
  simp [List.find?_cons, hn]

/-- C9 witness: an upper-case TITLE property overrides even when a
lower-case title property follows it, and the template lookup misses the
capitalized Template key. -/
theorem property_lookup_case_insensitive_witness :
    get_property ⟨"x", [], none, [("TITLE", "v"), ("title", "other")], none⟩ "title"
      = some "v"
    ∧ templateNameProperty [("Template", "v")] = none
    ∧ templateNameProperty [("template", "v")] = some "v" :=
  property_lookup_case_insensitive "x" [] none none "TITLE" "v" [("title", "other")] rfl

/-- C10 (confirmed).  A macro declared with zero parameters can never be
invoked successfully through the exporter: an inline call without an
argument string makes the exporter pass the empty string, splitting the
empty string at commas yields one empty argument, and one never equals
zero, so the processor always reports the argument count mismatch. -/
theorem zero_parameter_macro_always_errors (m : MacroDef) (h : m.arguments = []) :
    m.process (macroCallArgs none)
      = .error ("macro call argument count mismatch for " ++ m.label) := by
  unfold MacroDef.process
  rw [show macroCallArgs none = "" from rfl, h]
  rfl

/-- C10 witness: the theorem applied to a concrete zero-parameter
macro. -/
theorem zero_parameter_macro_witness :
    zeroArgMacroDef.process (macroCallArgs none)
      = .error ("macro call argument count mismatch for " ++ "z") :=
  zero_parameter_macro_always_errors zeroArgMacroDef rfl

end Sorg
